import Mathlib

/-
  Verification development for the ZINB-VAE repository.

  Part A embeds the tree message-passing engine of
  src/scvi/models/treevae.py (class TreeVAE).  Trees are modelled as an
  arena of integer node ids with a parent pointer; the per-node message
  state (visited, nu, mu, log_z) is a function from node ids.  The float
  computations are modelled over the exact rationals, and the
  log-normalizing constant of a node is kept in symbolic form (LogZ),
  interpreted into the reals by LogZ.toReal.

  Part B embeds the importance-sampling differential-expression
  estimator of src/scvi/model/base/_demixin.py (class DEMixin): the
  index pipeline of get_population_expression, the chunking step, the
  importance-weight normalization of _inference_loop, and the outlier
  filter fallback of filter_cells.  External collaborators (the robust
  covariance fit, the decoder) are modelled as oracle parameters.
-/

/-- Symbolic log-normalizing constant.  Every log_z value the source
computes has the shape c2pi * log(2 * pi) + clog * log arg + const with
rational coefficients; the three components are kept separately so that
the combinatorial part of the computation stays exact and executable. -/
structure LogZ where
  c2pi : ℚ
  clog : ℚ
  arg : ℚ
  const : ℚ
deriving DecidableEq

/-- The real number denoted by a symbolic log-normalizing constant. -/
noncomputable def LogZ.toReal (z : LogZ) : ℝ :=
  (z.c2pi : ℝ) * Real.log (2 * Real.pi) + (z.clog : ℝ) * Real.log (z.arg : ℝ) + (z.const : ℝ)

/-- The log_z = 0 message constant (arg = 1, so the value is zero). -/
def LogZ.null : LogZ := ⟨0, 0, 1, 0⟩

/-- Per-node message annotations of the tree: the visited flag and the
message triple (nu, mu, log_z), as attached by add_features in
initialize_messages and initialize_visit (treevae.py). -/
structure MPState where
  visited : ℕ → Bool
  nu : ℕ → ℚ
  mu : ℕ → List ℚ
  log_z : ℕ → LogZ

/-- The inference tree of TreeVAE: a list of node ids, a parent pointer
(none for the synthetic prior root), the designated prior root
(self.prior_root) and the biological root (self.root). -/
structure TreeGraph where
  nodes : List ℕ
  parent : ℕ → Option ℕ
  prior : ℕ
  root : ℕ

/-- root_node.children: the nodes whose parent pointer is this node. -/
def TreeGraph.children (T : TreeGraph) (j : ℕ) : List ℕ :=
  T.nodes.filter (fun i => T.parent i = some j)

/-- incident_nodes = children plus, unless the node is the tree root, its
parent (treevae.py lines 158-160). -/
def TreeGraph.incident (T : TreeGraph) (j : ℕ) : List ℕ :=
  T.children j ++ (match T.parent j with | some p => [p] | none => [])

/-- product_without(L, exclude) from perform_message_passing: the product
of the list elements whose index is not in the exclusion list. -/
def product_without (L : List ℚ) (exclude : List ℕ) : ℚ :=
  L.enum.foldl (fun prod p => if p.1 ∈ exclude then prod else prod * p.2) 1

/-- torch.sum((a - b) ** 2) on two mean vectors. -/
def sq_dist (a b : List ℚ) : ℚ :=
  ((a.zip b).map (fun p => (p.1 - p.2) ^ 2)).sum

/-- The n >= 2 branch of perform_message_passing (treevae.py lines
183-244), taking the incoming messages (nu, mu) together with the
initialized (nu, mu) of the node being updated, and returning the new
(nu, mu, log_z).  The Z_3 nested loop is translated faithfully: in the
source the statement that adds to Z_3 sits outside the inner loop, so
each outer iteration uses the last prod_2 computed by the inner loop,
and the Python loop variable h holds n - 1 once the inner loop ends. -/
def merge_messages (d : ℕ) (msgs : List (ℚ × List ℚ)) (nu0 : ℚ) (mu0 : List ℚ) :
    ℚ × List ℚ × LogZ :=
  let n := msgs.length
  -- children_nu[i] = k.nu + 1.0  (unit edge length)
  let children_nu := msgs.map (fun k => k.1 + 1)
  -- children_mu[i] = k.mu / children_nu[i]
  let children_mu := msgs.map (fun k => k.2.map (fun x => x / (k.1 + 1)))
  -- root_node.nu += 1 / children_nu[i]; then root_node.nu = 1 / root_node.nu
  let nu1 := 1 / (children_nu.foldl (fun a c => a + 1 / c) nu0)
  -- root_node.mu += children_mu[i]; then root_node.mu *= root_node.nu
  let mu1 := (children_mu.foldl (fun a c => List.zipWith (fun x y => x + y) a c) mu0).map
      (fun x => x * nu1)
  -- t = sum over leave-one-out products of children_nu
  let t := (List.range n).foldl
      (fun acc excluded_idx => acc + product_without children_nu [excluded_idx]) 0
  -- the Z_3 loop; the pair state is (prod_2, Z_3)
  let z3 := (List.range n).foldl
      (fun (st : ℚ × ℚ) j =>
        let prod_2 := (List.range n).foldl
            (fun p h => if h = j then p else product_without children_nu [j, h]) st.1
        let kmu := (msgs.getD (n - 1) (0, [])).2
        let lmu := (msgs.getD j (0, [])).2
        (prod_2, st.2 + prod_2 * sq_dist kmu lmu))
      (1, 0)
  -- Z_1 = -0.5*(n-1)*d*log(2*pi), Z_2 = -0.5*d*log(t), Z_3 *= -0.5 / t
  (nu1, mu1, ⟨-(1/2) * ((n : ℚ) - 1) * (d : ℚ), -(1/2) * (d : ℚ), t, z3.2 * (-(1/2) / t)⟩)

/-- Branch classification of perform_message_passing on the number of
incoming messages: the if / elif / elif / else chain on
n = len(incoming_messages).  The final else raises NotImplementedError
in the source and is represented by the fatal case. -/
inductive BranchCase where
  | leaf
  | passthrough
  | merge
  | fatal
deriving DecidableEq

/-- The branch selected for a given number of incoming messages. -/
def branchCase (n : ℕ) : BranchCase :=
  if n = 0 then BranchCase.leaf
  else if n = 1 then BranchCase.passthrough
  else if 2 ≤ n then BranchCase.merge
  else BranchCase.fatal

/-- The message update performed at root_node once its incoming messages
are collected (treevae.py lines 170-248).  The fatal case leaves the
state unchanged; it models the NotImplementedError raise and is proved
unreachable. -/
def nodeUpdate (d : ℕ) (s : MPState) (root_node : ℕ) (incoming : List ℕ) : MPState :=
  match branchCase incoming.length with
  | BranchCase.leaf => s
  | BranchCase.passthrough =>
    -- nu = k.nu + 1.0 (unit edge length), mu = k.mu, log_z = 0
    let k := incoming.headD root_node
    { s with
      nu := fun i => if i = root_node then s.nu k + 1 else s.nu i
      mu := fun i => if i = root_node then s.mu k else s.mu i
      log_z := fun i => if i = root_node then LogZ.null else s.log_z i }
  | BranchCase.merge =>
    let r := merge_messages d (incoming.map (fun k => (s.nu k, s.mu k)))
        (s.nu root_node) (s.mu root_node)
    { s with
      nu := fun i => if i = root_node then r.1 else s.nu i
      mu := fun i => if i = root_node then r.2.1 else s.mu i
      log_z := fun i => if i = root_node then r.2.2 else s.log_z i }
  | BranchCase.fatal => s

/-- perform_message_passing (treevae.py lines 151-248): mark the node
visited, recurse into the unvisited incident nodes (the prior root only
when include_prior is set), then update the message of the node from the
collected incoming messages.  The source recursion has no explicit
bound; the fuel argument only needs to cover the recursion depth, which
is at most the number of tree nodes since every recursive call targets a
node that was unvisited and is marked visited on entry. -/
def mpGo (T : TreeGraph) (d : ℕ) (include_prior : Bool) : ℕ → ℕ → MPState → MPState
  | 0, _, s => s
  | fuel + 1, root_node, s =>
    let s1 : MPState := { s with visited := fun i => if i = root_node then true else s.visited i }
    let r := (T.incident root_node).foldl
      (fun (acc : MPState × List ℕ) node =>
        if acc.1.visited node = false ∧
            (node ≠ T.prior ∨ (node = T.prior ∧ include_prior = true)) then
          (mpGo T d include_prior fuel node acc.1, acc.2 ++ [node])
        else acc)
      (s1, [])
    nodeUpdate d r.1 root_node r.2

/-- initialize_messages (treevae.py lines 112-144): leaves named by the
barcodes receive nu = 0, mu = evidence row, log_z = 0; the prior root
receives the zero vector (its dictionary entry is written after the
barcode loop and so wins); every other node receives zeroed defaults.
The visited flags are not touched. -/
def initialize_messages (T : TreeGraph) (evidence : List (List ℚ)) (barcodes : List ℕ)
    (d : ℕ) (s : MPState) : MPState :=
  { visited := s.visited
    nu := fun _ => 0
    mu := fun name =>
      if name = T.prior then List.replicate d 0
      else
        match (barcodes.zip evidence).reverse.find? (fun p => p.1 = name) with
        | some p => p.2
        | none => List.replicate d 0
    log_z := fun _ => LogZ.null }

/-- initialize_visit (treevae.py lines 146-149). -/
def initialize_visit (s : MPState) : MPState :=
  { s with visited := fun _ => false }

/-- posterior_predictive_density (treevae.py lines 268-285): always
re-initialize the visited flags; re-initialize the messages only when
evidence is passed; run a pass rooted at the query node with the prior
included; return the (mu, nu) of the query node.  The latent dimension
passed on is len(root_node.mu) read from the state after the
initialization, and the fuel covers the tree size. -/
def posterior_predictive_density (T : TreeGraph) (barcodes : List ℕ) (n_latent : ℕ)
    (query_node : ℕ) (evidence : Option (List (List ℚ))) (s : MPState) : List ℚ × ℚ :=
  let s1 := initialize_visit s
  let s2 := match evidence with
    | some ev => initialize_messages T ev barcodes n_latent s1
    | none => s1
  let s3 := mpGo T (s2.mu T.root).length true T.nodes.length query_node s2
  (s3.mu query_node, s3.nu query_node)

/-- The number of tree nodes not yet flagged visited. -/
def unvisitedCount (T : TreeGraph) (s : MPState) : ℕ :=
  T.nodes.countP (fun i => !s.visited i)

/-- Equality of the visited flag and the full message triple at one node. -/
def AgreeAt (p : ℕ) (s t : MPState) : Prop :=
  t.visited p = s.visited p ∧ t.nu p = s.nu p ∧ t.mu p = s.mu p ∧ t.log_z p = s.log_z p

/-- Reachability along incident edges of the tree. -/
inductive Reach (T : TreeGraph) : ℕ → ℕ → Prop where
  | refl (a : ℕ) : Reach T a a
  | step {a b c : ℕ} : b ∈ T.incident a → Reach T b c → Reach T a c

/-- int(np.ceil(a / b)) for natural a and positive b. -/
def npceil_div (a b : ℕ) : ℕ := (a + b - 1) / b

/-- The per-cell sample count of get_population_expression
(_demixin.py lines 223-229): n_samples when n_samples_overall is unset,
1 + ceil(n_samples_overall / n_cells_used) otherwise, capped at 100 by
np.minimum. -/
def n_samples_per_cell (n_samples : ℕ) (n_samples_overall : Option ℕ)
    (n_cells_used : ℕ) : ℕ :=
  let base := match n_samples_overall with
    | some overall => 1 + npceil_div overall n_cells_used
    | none => n_samples
  min base 100

/-- The section sizes used by np.array_split on a length len sequence cut
into m parts: len % m parts of size len / m + 1 followed by the rest of
size len / m. -/
def split_sizes (len m : ℕ) : List ℕ :=
  List.replicate (len % m) (len / m + 1) ++ List.replicate (m - len % m) (len / m)

/-- Cut a list into consecutive chunks of the given sizes. -/
def take_chunks {α : Type} : List ℕ → List α → List (List α)
  | [], _ => []
  | sz :: rest, l => l.take sz :: take_chunks rest (l.drop sz)

/-- np.array_split(l, m). -/
def array_split {α : Type} (l : List α) (m : ℕ) : List (List α) :=
  take_chunks (split_sizes l.length m) l

/-- The chunking step of get_population_expression (_demixin.py lines
218-221): split the shuffled index list into
ceil(n_cells / n_cells_per_chunk) chunks with np.array_split. -/
def cell_chunks {α : Type} (l : List α) (n_cells_per_chunk : ℕ) : List (List α) :=
  array_split l (npceil_div l.length n_cells_per_chunk)

/-- torch.logsumexp over a vector of log-importance-weights. -/
noncomputable def logsumexp (n : ℕ) (w : Fin n → ℝ) : ℝ :=
  Real.log (∑ i, Real.exp (w i))

/-- log_probs = importance_weight - logsumexp(importance_weight)
(_demixin.py line 359). -/
noncomputable def log_probs (n : ℕ) (w : Fin n → ℝ) : Fin n → ℝ :=
  fun i => w i - logsumexp n w

/-- numpy boolean-mask selection indices[idx_filt]; a mask of the wrong
length is an IndexError, reported as none. -/
def maskSelect {α : Type} : List α → List Bool → Option (List α)
  | [], [] => some []
  | x :: xs, b :: bs => (maskSelect xs bs).map (fun r => if b then x :: r else r)
  | _, _ => none

/-- filter_cells (_demixin.py lines 433-473).  The robust covariance fit
EllipticEnvelope().fit_predict is an external collaborator and enters as
an oracle: ok with the boolean inlier mask (idx_filt == 1), or error
when it raises ValueError.  qz_rows is the row count of the latent
representation qz_m. -/
def filter_cells (indices : List ℕ) (qz_rows : ℕ) (fit : Except Unit (List Bool)) :
    Except String (List ℕ) :=
  if qz_rows ≠ indices.length then
    Except.error "Dimension mismatch of variational density means"
  else
    let idx_filt := match fit with
      | Except.ok m => m
      | Except.error _ => List.replicate qz_rows true
    let idx_filt := if idx_filt.count true ≤ 1 then List.replicate qz_rows true else idx_filt
    match maskSelect indices idx_filt with
    | some r => Except.ok r
    | none => Except.error "IndexError"

/-- Step 1 of get_population_expression (_demixin.py lines 187-199): the
optional transform-batch restriction.  restrict carries the observed
batch code of each supplied index together with the requested batch
code; a length mismatch raises ValueError. -/
def effective_indices (indices : List ℕ) (restrict : Option (List ℕ × ℕ)) :
    Except String (List ℕ) :=
  match restrict with
  | none => Except.ok indices
  | some (observed_batches, transform_batch_val) =>
    if indices.length ≠ observed_batches.length then
      Except.error "Discrepancy between number of indices and number of batches"
    else
      Except.ok (((indices.zip observed_batches).filter
        (fun p => p.2 = transform_batch_val)).map Prod.fst)

/-- get_population_expression reduced to its index pipeline and result
shape (_demixin.py lines 185-251): restrict the indices, and on an empty
effective index set return the empty array of shape (0, n_genes) at
once.  Everything performed after the emptiness test, that is outlier
filtering, chunking, per-chunk sampling and resampling, is abstracted
into the oracle rest, which returns the shape of the final array or
raises. -/
def get_population_expression (indices : List ℕ) (restrict : Option (List ℕ × ℕ))
    (n_genes : ℕ) (rest : List ℕ → Except String (ℕ × ℕ)) : Except String (ℕ × ℕ) :=
  match effective_indices indices restrict with
  | Except.error e => Except.error e
  | Except.ok indices1 =>
    if indices1.length = 0 then Except.ok (0, n_genes)
    else rest indices1

/-- Modelled from the spec, claim C1 wording: the pairwise Z_3 term
summed over all ordered pairs (j, h) with j different from h, with the
product of children_nu taken over the indices excluding j and h. -/
def spec_Z3_ordered_pairs (children_nu : List ℚ) (mus : List (List ℚ)) : ℚ :=
  let n := children_nu.length
  ∑ j ∈ Finset.range n, ∑ h ∈ Finset.range n,
    if h = j then 0
    else product_without children_nu [j, h] * sq_dist (mus.getD j []) (mus.getD h [])

/-- Modelled from the spec, claim C1 wording: the claimed value
Z1 + Z2 + Z3 of the log_z of a node with n incoming messages, with
Z3 the ordered-pair sum. -/
noncomputable def claimed_log_z (d : ℕ) (msgs : List (ℚ × List ℚ)) : ℝ :=
  let n := msgs.length
  let children_nu := msgs.map (fun k => k.1 + 1)
  let t : ℚ := ∑ k ∈ Finset.range n, product_without children_nu [k]
  (-(1 : ℝ)/2) * ((n : ℝ) - 1) * (d : ℝ) * Real.log (2 * Real.pi)
    + (-(1 : ℝ)/2) * (d : ℝ) * Real.log (t : ℝ)
    + ((-(1 : ℝ)/2) / (t : ℝ)) * ((spec_Z3_ordered_pairs children_nu (msgs.map Prod.snd) : ℚ) : ℝ)

/-- Closed form of the t accumulated by the source (and asserted by the
spec): the sum over leave-one-out products of children_nu. -/
def tClosed (msgs : List (ℚ × List ℚ)) : ℚ :=
  ∑ k ∈ Finset.range msgs.length, product_without (msgs.map (fun m => m.1 + 1)) [k]

/-- Closed form of the pairwise sum the Z_3 loop of the source actually
accumulates: only the pairs (j, n - 1) against the final incoming
message survive, each taken once. -/
def z3Closed (msgs : List (ℚ × List ℚ)) : ℚ :=
  ∑ j ∈ Finset.range (msgs.length - 1),
    product_without (msgs.map (fun m => m.1 + 1)) [j, msgs.length - 1]
      * sq_dist ((msgs.getD (msgs.length - 1) (0, [])).2) ((msgs.getD j (0, [])).2)

/-- Pointwise growth of the visited flags. -/
def VisMono (s t : MPState) : Prop := ∀ i, s.visited i = true → t.visited i = true

/-- A fixed example tree: synthetic prior root 0 above biological root 1,
which carries the two leaves 2 and 3. -/
def exTree : TreeGraph :=
  { nodes := [0, 1, 2, 3]
    parent := fun i => if i = 1 then some 0 else if i = 2 then some 1
      else if i = 3 then some 1 else none
    prior := 0
    root := 1 }

/-- Message state on exTree whose two leaves carry messages of equal
precision nu = 1 with means (0,0) and (1,1) in latent dimension 2. -/
def exStateC2 : MPState :=
  { visited := fun _ => false
    nu := fun i => if i = 2 then 1 else if i = 3 then 1 else 0
    mu := fun i => if i = 2 then [0, 0] else if i = 3 then [1, 1] else [0, 0]
    log_z := fun _ => LogZ.null }

/-- A leftover message state on exTree with all-zero messages in latent
dimension 1. -/
def exStateA : MPState :=
  { visited := fun _ => false
    nu := fun _ => 0
    mu := fun _ => [0]
    log_z := fun _ => LogZ.null }

/-- The same leftover state except that leaf 2 carries the stale mean 4. -/
def exStateB : MPState :=
  { exStateA with mu := fun i => if i = 2 then [4] else [0] }

/-! ### General lemmas -/

theorem sq_dist_self (a : List ℚ) : sq_dist a a = 0 := by
  induction a with
  | nil => rfl
  | cons x xs ih => simpa [sq_dist] using ih

theorem maskSelect_replicate_true {α : Type} :
    ∀ l : List α, maskSelect l (List.replicate l.length true) = some l
  | [] => rfl
  | x :: xs => by
    simp [maskSelect, List.replicate, maskSelect_replicate_true xs]

theorem take_chunks_length {α : Type} :
    ∀ (szs : List ℕ) (l : List α), (take_chunks szs l).length = szs.length
  | [], _ => rfl
  | sz :: rest, l => by
    simp [take_chunks, take_chunks_length rest]

theorem take_chunks_join {α : Type} :
    ∀ (szs : List ℕ) (l : List α), (take_chunks szs l).join = l.take szs.sum
  | [], l => by simp [take_chunks]
  | sz :: rest, l => by
    simp [take_chunks, take_chunks_join rest, List.take_add]

theorem split_sizes_length (len m : ℕ) (hm : 1 ≤ m) : (split_sizes len m).length = m := by
  have := Nat.mod_lt len hm
  simp [split_sizes]
  omega

theorem split_sizes_sum (len m : ℕ) (hm : 1 ≤ m) : (split_sizes len m).sum = len := by
  have h1 : len % m < m := Nat.mod_lt len hm
  have h2 : m * (len / m) + len % m = len := Nat.div_add_mod len m
  have h5 : len % m + (m - len % m) = m := by omega
  simp only [split_sizes, List.sum_append, List.sum_replicate, smul_eq_mul]
  calc len % m * (len / m + 1) + (m - len % m) * (len / m)
      = (len % m + (m - len % m)) * (len / m) + len % m := by ring
    _ = len := by rw [h5, h2]

/-! ### Claim theorems, part B (DEMixin) -/

/-- C4 (counterexample): with n_samples_overall unset and n_samples =
101, the per-chunk loop does not draw 101 samples per cell: the source
caps the per-cell sample count at 100 with np.minimum. -/
theorem n_samples_per_cell_counterexample :
    ¬ (n_samples_per_cell 101 none 7 = 101) := by decide

/-- C4 (amended): with n_samples_overall unset, the per-chunk inference
loop draws exactly min(n_samples, 100) latent samples per cell. -/
theorem n_samples_per_cell_unset_eq_min (n_samples n_cells_used : ℕ) :
    n_samples_per_cell n_samples none n_cells_used = min n_samples 100 := rfl

/-- C5: for a non-empty subpopulation of N cells and a chunk bound k at
least 1, the chunking step produces exactly ceil(N / k) chunks, and the
concatenation of all chunks is exactly the shuffled index list: each
index once, no duplicates and no omissions. -/
theorem cell_chunks_cover {α : Type} (l : List α) (k : ℕ) (hk : 1 ≤ k) (hl : l ≠ []) :
    (cell_chunks l k).length = npceil_div l.length k ∧ (cell_chunks l k).join = l := by
  have hlen : 1 ≤ l.length := List.length_pos.mpr hl
  have hm : 1 ≤ npceil_div l.length k := by
    rw [npceil_div, Nat.le_div_iff_mul_le hk]
    omega
  constructor
  · rw [cell_chunks, array_split, take_chunks_length, split_sizes_length _ _ hm]
  · rw [cell_chunks, array_split, take_chunks_join, split_sizes_sum _ _ hm, List.take_length]

/-- Witness for C5 at a concrete subpopulation. -/
theorem cell_chunks_cover_witness :
    (1 ≤ 2 ∧ ([7, 3, 9] : List ℕ) ≠ []) ∧
    ((cell_chunks ([7, 3, 9] : List ℕ) 2).length = npceil_div ([7, 3, 9] : List ℕ).length 2 ∧
      (cell_chunks ([7, 3, 9] : List ℕ) 2).join = [7, 3, 9]) :=
  ⟨⟨by decide, by decide⟩, cell_chunks_cover [7, 3, 9] 2 (by decide) (by decide)⟩

/-- C6: for a non-empty vector of unnormalized log-importance-weights,
the normalized log-probabilities log_probs = w - logsumexp(w) satisfy
sum of exp(log_probs) = 1, exactly, over the reals. -/
theorem log_probs_normalized (n : ℕ) (w : Fin n → ℝ) (hn : 0 < n) :
    ∑ i, Real.exp (log_probs n w i) = 1 := by
  haveI : Nonempty (Fin n) := ⟨⟨0, hn⟩⟩
  have hS : 0 < ∑ i, Real.exp (w i) :=
    Finset.sum_pos (fun i _ => Real.exp_pos _) Finset.univ_nonempty
  have : ∀ i, Real.exp (log_probs n w i) = Real.exp (w i) / (∑ j, Real.exp (w j)) := by
    intro i
    rw [log_probs, logsumexp, Real.exp_sub, Real.exp_log hS]
  rw [Finset.sum_congr rfl (fun i _ => this i), ← Finset.sum_div,
    div_self (ne_of_gt hS)]

/-- Witness for C6 at a concrete weight vector. -/
theorem log_probs_normalized_witness :
    (0 < 2) ∧ ∑ i, Real.exp (log_probs 2 (fun _ => 0) i) = 1 :=
  ⟨by decide, log_probs_normalized 2 (fun _ => 0) (by decide)⟩

/-- C7: when the robust covariance fit raises, or when the fitted mask
would retain at most one cell, filter_cells returns the input index set
unchanged and does not raise. -/
theorem filter_cells_fallback (indices : List ℕ) (fit : Except Unit (List Bool))
    (h : fit = Except.error () ∨ ∃ m, fit = Except.ok m ∧ m.count true ≤ 1) :
    filter_cells indices indices.length fit = Except.ok indices := by
  have hmask := maskSelect_replicate_true indices
  rcases h with h | ⟨m, hm, hc⟩
  · subst h
    simp [filter_cells, hmask]
  · subst hm
    simp [filter_cells, hc, hmask]

/-- Witness for C7 at a concrete index set and a failing fit. -/
theorem filter_cells_fallback_witness :
    (Except.error () = (Except.error () : Except Unit (List Bool)) ∨
      ∃ m, (Except.error () : Except Unit (List Bool)) = Except.ok m ∧ m.count true ≤ 1) ∧
    filter_cells [10, 20] ([10, 20] : List ℕ).length (Except.error ()) = Except.ok [10, 20] :=
  ⟨Or.inl rfl, filter_cells_fallback [10, 20] (Except.error ()) (Or.inl rfl)⟩

/-- C9: the branch classification of perform_message_passing on the
number n of incoming messages selects the fatal NotImplementedError
branch exactly when n is outside the implemented cases 0, 1 and >= 2;
since n is a natural number this never happens, so the raise is
unreachable. -/
theorem branch_classification_total :
    ∀ n : ℕ, (branchCase n = BranchCase.fatal ↔ ¬(n = 0 ∨ n = 1 ∨ 2 ≤ n)) ∧
      branchCase n ≠ BranchCase.fatal := by
  intro n
  have h : n = 0 ∨ n = 1 ∨ 2 ≤ n := by omega
  unfold branchCase
  rcases h with h | h | h
  · subst h; simp
  · subst h; simp
  · rw [if_neg (by omega), if_neg (by omega), if_pos h]
    simp [h]

/-- C10: when the effective index set after the optional batch
restriction is empty, get_population_expression returns the empty array
of shape (0, number of genes) at once, for every possible behavior of
the filtering, chunking and sampling steps, and raises nothing. -/
theorem empty_population_short_circuit (indices : List ℕ) (restrict : Option (List ℕ × ℕ))
    (n_genes : ℕ) (rest : List ℕ → Except String (ℕ × ℕ))
    (h : effective_indices indices restrict = Except.ok []) :
    get_population_expression indices restrict n_genes rest = Except.ok (0, n_genes) := by
  simp [get_population_expression, h]

/-- Witness for C10: indices whose batch restriction leaves nothing. -/
theorem empty_population_short_circuit_witness :
    effective_indices [0, 1] (some ([5, 5], 7)) = Except.ok [] ∧
    get_population_expression [0, 1] (some ([5, 5], 7)) 30 (fun _ => Except.error "boom")
      = Except.ok (0, 30) :=
  ⟨rfl, empty_population_short_circuit [0, 1] (some ([5, 5], 7)) 30 (fun _ => Except.error "boom") rfl⟩

/-! ### Fold lemmas for the n >= 2 branch -/

theorem foldl_add_range (f : ℕ → ℚ) : ∀ (n : ℕ) (a : ℚ),
    (List.range n).foldl (fun acc i => acc + f i) a = a + ∑ i ∈ Finset.range n, f i
  | 0, a => by simp
  | n + 1, a => by
    rw [List.range_succ, List.foldl_append, foldl_add_range f n a, Finset.sum_range_succ]
    simp [List.foldl]
    ring

theorem t_fold_eq (L : List ℚ) (n : ℕ) :
    (List.range n).foldl (fun acc excluded_idx => acc + product_without L [excluded_idx]) 0
      = ∑ k ∈ Finset.range n, product_without L [k] := by
  simpa using foldl_add_range (fun i => product_without L [i]) n 0

theorem inner_last (cnu : List ℚ) (j m : ℕ) (p0 : ℚ) (hm : 1 ≤ m) (hne : m - 1 ≠ j) :
    (List.range m).foldl (fun p h => if h = j then p else product_without cnu [j, h]) p0
      = product_without cnu [j, m - 1] := by
  obtain ⟨m1, rfl⟩ : ∃ m1, m = m1 + 1 := ⟨m - 1, by omega⟩
  rw [List.range_succ, List.foldl_append]
  have hne1 : m1 ≠ j := by simpa using hne
  simp [hne1]

theorem inner_skip_last (cnu : List ℚ) (m : ℕ) (p0 : ℚ) (hm : 2 ≤ m) :
    (List.range m).foldl (fun p h => if h = m - 1 then p else product_without cnu [m - 1, h]) p0
      = product_without cnu [m - 1, m - 2] := by
  obtain ⟨m1, rfl⟩ : ∃ m1, m = m1 + 1 := ⟨m - 1, by omega⟩
  have e1 : m1 + 1 - 1 = m1 := by omega
  have e2 : m1 + 1 - 2 = m1 - 1 := by omega
  rw [e1, e2, List.range_succ, List.foldl_append]
  have h1 : 1 ≤ m1 := by omega
  have h2 : m1 - 1 ≠ m1 := by omega
  simp
  exact inner_last cnu m1 m1 _ h1 h2

theorem z3_fold_closed (msgs : List (ℚ × List ℚ)) (hn : 2 ≤ msgs.length) :
    ∀ (mo : ℕ), mo ≤ msgs.length → ∀ (p0 a0 : ℚ),
      ∃ q, ((List.range mo).foldl
          (fun (st : ℚ × ℚ) j =>
            ((List.range msgs.length).foldl
                (fun p h => if h = j then p
                  else product_without (msgs.map (fun mm => mm.1 + 1)) [j, h]) st.1,
             st.2 + ((List.range msgs.length).foldl
                (fun p h => if h = j then p
                  else product_without (msgs.map (fun mm => mm.1 + 1)) [j, h]) st.1)
               * sq_dist ((msgs.getD (msgs.length - 1) (0, [])).2) ((msgs.getD j (0, [])).2)))
          (p0, a0))
        = (q, a0 + ∑ j ∈ Finset.range mo,
            (if j = msgs.length - 1
             then product_without (msgs.map (fun mm => mm.1 + 1)) [msgs.length - 1, msgs.length - 2]
             else product_without (msgs.map (fun mm => mm.1 + 1)) [j, msgs.length - 1])
              * sq_dist ((msgs.getD (msgs.length - 1) (0, [])).2) ((msgs.getD j (0, [])).2)) := by
  intro mo
  induction mo with
  | zero => intro _ p0 a0; exact ⟨p0, by simp⟩
  | succ mo ih =>
    intro hmo p0 a0
    obtain ⟨q, hq⟩ := ih (by omega) p0 a0
    have hinner : (List.range msgs.length).foldl
        (fun p h => if h = mo then p
          else product_without (msgs.map (fun mm => mm.1 + 1)) [mo, h]) q
        = (if mo = msgs.length - 1
           then product_without (msgs.map (fun mm => mm.1 + 1)) [msgs.length - 1, msgs.length - 2]
           else product_without (msgs.map (fun mm => mm.1 + 1)) [mo, msgs.length - 1]) := by
      by_cases hjm : mo = msgs.length - 1
      · subst hjm
        rw [if_pos rfl]
        exact inner_skip_last (msgs.map (fun mm => mm.1 + 1)) msgs.length q hn
      · rw [if_neg hjm]
        exact inner_last (msgs.map (fun mm => mm.1 + 1)) mo msgs.length q (by omega)
          (by omega)
    refine ⟨(if mo = msgs.length - 1
      then product_without (msgs.map (fun mm => mm.1 + 1)) [msgs.length - 1, msgs.length - 2]
      else product_without (msgs.map (fun mm => mm.1 + 1)) [mo, msgs.length - 1]), ?_⟩
    rw [List.range_succ, List.foldl_append, hq]
    simp only [List.foldl_cons, List.foldl_nil, hinner, Finset.sum_range_succ]
    rw [add_assoc]

theorem z3_fold_snd (msgs : List (ℚ × List ℚ)) (hn : 2 ≤ msgs.length) :
    ((List.range msgs.length).foldl
        (fun (st : ℚ × ℚ) j =>
          ((List.range msgs.length).foldl
              (fun p h => if h = j then p
                else product_without (msgs.map (fun mm => mm.1 + 1)) [j, h]) st.1,
           st.2 + ((List.range msgs.length).foldl
              (fun p h => if h = j then p
                else product_without (msgs.map (fun mm => mm.1 + 1)) [j, h]) st.1)
             * sq_dist ((msgs.getD (msgs.length - 1) (0, [])).2) ((msgs.getD j (0, [])).2)))
        (1, 0)).2
      = z3Closed msgs := by
  obtain ⟨q, hq⟩ := z3_fold_closed msgs hn msgs.length le_rfl 1 0
  rw [hq]
  obtain ⟨n1, hn1⟩ : ∃ n1, msgs.length = n1 + 1 := ⟨msgs.length - 1, by omega⟩
  simp only [z3Closed, hn1, Nat.add_sub_cancel]
  rw [Finset.sum_range_succ]
  simp [sq_dist_self]
  apply Finset.sum_congr rfl
  intro j hj
  have hne : j ≠ n1 := by
    have := Finset.mem_range.mp hj
    omega
  simp [hne]

theorem merge_log_z_eq (d : ℕ) (msgs : List (ℚ × List ℚ)) (nu0 : ℚ) (mu0 : List ℚ)
    (hn : 2 ≤ msgs.length) :
    (merge_messages d msgs nu0 mu0).2.2 =
      ⟨-(1/2) * ((msgs.length : ℚ) - 1) * (d : ℚ), -(1/2) * (d : ℚ), tClosed msgs,
        z3Closed msgs * (-(1/2) / tClosed msgs)⟩ := by
  simp only [merge_messages]
  rw [t_fold_eq, z3_fold_snd msgs hn]
  rfl

/-! ### Claim theorems, part A (TreeVAE) -/

/-- C1 (counterexample): at a node with two incoming messages of
precision 1 and means (0,0) and (1,1) in latent dimension 2, the log_z
the source computes is not Z1 + Z2 + Z3 with Z3 summed over all ordered
pairs: the code yields -log(2 pi) - log 4 - 1/4 while the ordered-pair
formula yields -log(2 pi) - log 4 - 1/2. -/
theorem merge_log_z_ordered_pairs_counterexample :
    ¬ ((merge_messages 2 [(1, [0, 0]), (1, [1, 1])] 0 [0, 0]).2.2.toReal
        = claimed_log_z 2 [(1, [0, 0]), (1, [1, 1])]) := by
  have hcode : (merge_messages 2 [(1, [0, 0]), (1, [1, 1])] 0 [0, 0]).2.2
      = ⟨-1, -1, 4, -(1/4)⟩ := by
    norm_num [merge_messages, product_without, sq_dist, List.enum, List.enumFrom,
      List.range_succ]
  rw [hcode]
  intro h
  have hs : claimed_log_z 2 [(1, [0, 0]), (1, [1, 1])]
      = -Real.log (2 * Real.pi) - Real.log 4 - 1/2 := by
    norm_num [claimed_log_z, spec_Z3_ordered_pairs, product_without, sq_dist,
      Finset.sum_range_succ, List.enum, List.enumFrom]
    ring
  rw [hs] at h
  simp only [LogZ.toReal] at h
  push_cast at h
  linarith

/-- C1 (amended): for every node with n >= 2 incoming messages, log_z is
set to Z1 + Z2 + Z3 with Z1 = -0.5*(n-1)*d*log(2 pi),
Z2 = -0.5*d*log(t) with t the sum over leave-one-out products of the
edge-incremented children precisions (tClosed), and Z3 = (-0.5/t) times
the sum over the pairs (j, n-1) only, j < n - 1, of the product of
children_nu excluding j and n-1 times the squared distance of mu_j to
the final mean mu_(n-1) (z3Closed): the inner loop only retains its last
prod_2 value and the squared distances are all taken against the last
incoming message. -/
theorem merge_log_z_amended (d : ℕ) (msgs : List (ℚ × List ℚ)) (nu0 : ℚ) (mu0 : List ℚ)
    (hn : 2 ≤ msgs.length) :
    (merge_messages d msgs nu0 mu0).2.2.toReal
      = (-(1:ℝ)/2) * ((msgs.length : ℝ) - 1) * (d : ℝ) * Real.log (2 * Real.pi)
        + (-(1:ℝ)/2) * (d : ℝ) * Real.log ((tClosed msgs : ℚ) : ℝ)
        + ((-(1:ℝ)/2) / ((tClosed msgs : ℚ) : ℝ)) * ((z3Closed msgs : ℚ) : ℝ) := by
  rw [merge_log_z_eq d msgs nu0 mu0 hn]
  simp only [LogZ.toReal]
  push_cast
  ring

/-- Witness for the amended C1 at a concrete pair of messages. -/
theorem merge_log_z_amended_witness :
    2 ≤ ([((1:ℚ), [(0:ℚ), 0]), (1, [1, 1])]).length ∧
    (merge_messages 2 [((1:ℚ), [(0:ℚ), 0]), (1, [1, 1])] 0 [0, 0]).2.2.toReal
      = (-(1:ℝ)/2) * ((([((1:ℚ), [(0:ℚ), 0]), (1, [1, 1])]).length : ℝ) - 1) * ((2:ℕ) : ℝ)
          * Real.log (2 * Real.pi)
        + (-(1:ℝ)/2) * ((2:ℕ) : ℝ) * Real.log ((tClosed [((1:ℚ), [(0:ℚ), 0]), (1, [1, 1])] : ℚ) : ℝ)
        + ((-(1:ℝ)/2) / ((tClosed [((1:ℚ), [(0:ℚ), 0]), (1, [1, 1])] : ℚ) : ℝ))
          * ((z3Closed [((1:ℚ), [(0:ℚ), 0]), (1, [1, 1])] : ℚ) : ℝ) :=
  ⟨by decide, merge_log_z_amended 2 [((1:ℚ), [(0:ℚ), 0]), (1, [1, 1])] 0 [0, 0] (by decide)⟩

/-- C2: running perform_message_passing on a node with exactly two
incoming messages of equal precision nu = 1, latent dimension 2, means
(0,0) and (1,1), unit edge lengths (so each child precision becomes 2
and t = 4), produces log_z = -log(2 pi) - log 4 - 1/4, the analytic
log-partition value of the product of the two Gaussians. -/
theorem two_child_log_z_value :
    ((mpGo exTree 2 false 4 1 exStateC2).log_z 1).toReal
      = -Real.log (2 * Real.pi) - Real.log 4 - 1/4 := by
  have h : (mpGo exTree 2 false 4 1 exStateC2).log_z 1 = ⟨-1, -1, 4, -(1/4)⟩ := by
    norm_num [mpGo, nodeUpdate, merge_messages, branchCase, exTree, exStateC2,
      TreeGraph.incident, TreeGraph.children, product_without, sq_dist, LogZ.null,
      List.enum, List.enumFrom, List.range_succ, List.filter, List.foldl]
  rw [h]
  simp only [LogZ.toReal]
  push_cast
  ring

/-- C3 (counterexample): posterior_predictive_density does not
re-initialize the messages when no evidence is passed, so the returned
belief does depend on message values left over from an earlier pass: on
the example tree, two leftover states that differ only in the message
mean of leaf 2 give different beliefs at query node 1. -/
theorem ppd_depends_on_stale_messages :
    (posterior_predictive_density exTree [2, 3] 1 1 none exStateA).1
      ≠ (posterior_predictive_density exTree [2, 3] 1 1 none exStateB).1 := by
  norm_num [posterior_predictive_density, initialize_visit, mpGo, nodeUpdate,
    merge_messages, branchCase, exTree, exStateA, exStateB,
    TreeGraph.incident, TreeGraph.children, product_without, sq_dist, LogZ.null,
    List.enum, List.enumFrom, List.range_succ, List.filter, List.foldl]

/-- C3 (amended): posterior_predictive_density always re-initializes the
visited flags, re-initializes the messages only when evidence is
supplied, runs a pass rooted at the query node with the prior included,
and returns the query node resulting (mu, nu); when evidence is
supplied, the returned belief does not depend on any prior message
state. -/
theorem ppd_with_evidence_is_fresh (T : TreeGraph) (barcodes : List ℕ) (n_latent : ℕ)
    (query_node : ℕ) (ev : List (List ℚ)) (s1 s2 : MPState) :
    posterior_predictive_density T barcodes n_latent query_node (some ev) s1
      = posterior_predictive_density T barcodes n_latent query_node (some ev) s2 := rfl

/-! ### Frame and visiting lemmas for perform_message_passing -/

theorem visMono_refl (s : MPState) : VisMono s s := fun _ h => h

theorem visMono_trans {s t u : MPState} (h1 : VisMono s t) (h2 : VisMono t u) : VisMono s u :=
  fun i hi => h2 i (h1 i hi)

theorem agreeAt_refl (p : ℕ) (s : MPState) : AgreeAt p s s := ⟨rfl, rfl, rfl, rfl⟩

theorem agreeAt_trans {p : ℕ} {s t u : MPState} (h1 : AgreeAt p s t) (h2 : AgreeAt p t u) :
    AgreeAt p s u :=
  ⟨h2.1.trans h1.1, h2.2.1.trans h1.2.1, h2.2.2.1.trans h1.2.2.1, h2.2.2.2.trans h1.2.2.2⟩

theorem nodeUpdate_visited (d : ℕ) (s : MPState) (r : ℕ) (inc : List ℕ) :
    (nodeUpdate d s r inc).visited = s.visited := by
  rcases hbc : branchCase inc.length <;> simp [nodeUpdate, hbc]

theorem nodeUpdate_agree (d : ℕ) (s : MPState) (r : ℕ) (inc : List ℕ) (p : ℕ) (hp : p ≠ r) :
    AgreeAt p s (nodeUpdate d s r inc) := by
  rcases hbc : branchCase inc.length <;>
    exact ⟨by simp [nodeUpdate, hbc], by simp [nodeUpdate, hbc, hp],
      by simp [nodeUpdate, hbc, hp], by simp [nodeUpdate, hbc, hp]⟩

theorem mpFold_mono (T : TreeGraph) (d : ℕ) (ip : Bool) (fuel : ℕ)
    (IH : ∀ (j : ℕ) (s : MPState), VisMono s (mpGo T d ip fuel j s)) :
    ∀ (L : List ℕ) (acc : MPState × List ℕ),
      VisMono acc.1 ((L.foldl
        (fun (acc : MPState × List ℕ) node =>
          if acc.1.visited node = false ∧
              (node ≠ T.prior ∨ (node = T.prior ∧ ip = true)) then
            (mpGo T d ip fuel node acc.1, acc.2 ++ [node])
          else acc) acc).1)
  | [], acc => visMono_refl _
  | node :: rest, acc => by
    simp only [List.foldl_cons]
    by_cases hc : acc.1.visited node = false ∧ (node ≠ T.prior ∨ (node = T.prior ∧ ip = true))
    · rw [if_pos hc]
      exact visMono_trans (IH node acc.1)
        (mpFold_mono T d ip fuel IH rest (mpGo T d ip fuel node acc.1, acc.2 ++ [node]))
    · rw [if_neg hc]
      exact mpFold_mono T d ip fuel IH rest acc

theorem mpGo_mono (T : TreeGraph) (d : ℕ) (ip : Bool) :
    ∀ (fuel j : ℕ) (s : MPState), VisMono s (mpGo T d ip fuel j s)
  | 0, _, s => visMono_refl s
  | fuel + 1, j, s => by
    simp only [mpGo]
    intro i hi
    rw [nodeUpdate_visited]
    refine mpFold_mono T d ip fuel (fun j s => mpGo_mono T d ip fuel j s) (T.incident j)
      ({ s with visited := fun i => if i = j then true else s.visited i }, []) i ?_
    by_cases h : i = j <;> simp [h, hi]

theorem mpFold_agree_prior (T : TreeGraph) (d : ℕ) (fuel : ℕ)
    (IH : ∀ (j : ℕ) (s : MPState), j ≠ T.prior → AgreeAt T.prior s (mpGo T d false fuel j s)) :
    ∀ (L : List ℕ) (acc : MPState × List ℕ),
      AgreeAt T.prior acc.1 ((L.foldl
        (fun (acc : MPState × List ℕ) node =>
          if acc.1.visited node = false ∧
              (node ≠ T.prior ∨ (node = T.prior ∧ false = true)) then
            (mpGo T d false fuel node acc.1, acc.2 ++ [node])
          else acc) acc).1)
  | [], acc => agreeAt_refl _ _
  | node :: rest, acc => by
    simp only [List.foldl_cons]
    by_cases hc : acc.1.visited node = false ∧ (node ≠ T.prior ∨ (node = T.prior ∧ false = true))
    · rw [if_pos hc]
      have hnp : node ≠ T.prior := by
        rcases hc.2 with h | h
        · exact h
        · exact absurd h.2 (by simp)
      exact agreeAt_trans (IH node acc.1 hnp)
        (mpFold_agree_prior T d fuel IH rest (mpGo T d false fuel node acc.1, acc.2 ++ [node]))
    · rw [if_neg hc]
      exact mpFold_agree_prior T d fuel IH rest acc

theorem mpGo_agree_prior (T : TreeGraph) (d : ℕ) :
    ∀ (fuel j : ℕ) (s : MPState), j ≠ T.prior → AgreeAt T.prior s (mpGo T d false fuel j s)
  | 0, _, s, _ => agreeAt_refl _ _
  | fuel + 1, j, s, hj => by
    simp only [mpGo]
    have hpj : T.prior ≠ j := fun h => hj h.symm
    have hmark : AgreeAt T.prior s
        { s with visited := fun i => if i = j then true else s.visited i } :=
      ⟨by simp [hpj], rfl, rfl, rfl⟩
    refine agreeAt_trans (agreeAt_trans hmark
      (mpFold_agree_prior T d fuel (fun j s h => mpGo_agree_prior T d fuel j s h)
        (T.incident j) ({ s with visited := fun i => if i = j then true else s.visited i }, [])))
      (nodeUpdate_agree d _ j _ T.prior hpj)

theorem countP_update_le (j : ℕ) (v : ℕ → Bool) (l : List ℕ) :
    l.countP (fun i => !(if i = j then true else v i)) ≤ l.countP (fun i => !v i) := by
  apply List.countP_mono_left
  intro i _ hi
  by_cases h : i = j
  · simp [h] at hi
  · simpa [h] using hi

theorem countP_update_lt (j : ℕ) (v : ℕ → Bool) :
    ∀ (l : List ℕ), j ∈ l → v j = false →
      l.countP (fun i => !(if i = j then true else v i)) < l.countP (fun i => !v i) := by
  intro l
  induction l with
  | nil => intro hj _; exact absurd hj (List.not_mem_nil j)
  | cons a l ih =>
    intro hj hv
    by_cases haj : a = j
    · subst haj
      have h1 := countP_update_le a v l
      have e1 : List.countP (fun i => !(if i = a then true else v i)) (a :: l)
          = List.countP (fun i => !(if i = a then true else v i)) l := by
        rw [List.countP_cons]
        simp
      have e2 : List.countP (fun i => !v i) (a :: l)
          = List.countP (fun i => !v i) l + 1 := by
        rw [List.countP_cons]
        simp [hv]
      rw [e1, e2]
      omega
    · rcases List.mem_cons.mp hj with h | h
      · exact absurd h.symm haj
      · have h2 := ih h hv
        have e1 : List.countP (fun i => !(if i = j then true else v i)) (a :: l)
            = List.countP (fun i => !(if i = j then true else v i)) l
              + (if (!v a) = true then 1 else 0) := by
          rw [List.countP_cons]
          simp [haj]
        have e2 : List.countP (fun i => !v i) (a :: l)
            = List.countP (fun i => !v i) l + (if (!v a) = true then 1 else 0) := by
          rw [List.countP_cons]
        rw [e1, e2]
        omega

theorem unvisitedCount_mono (T : TreeGraph) {s t : MPState} (h : VisMono s t) :
    unvisitedCount T t ≤ unvisitedCount T s := by
  apply List.countP_mono_left
  intro i _ hi
  cases hs : s.visited i
  · simp
  · have ht := h i hs
    simp [ht] at hi

theorem unvisitedCount_pos (T : TreeGraph) (s : MPState) (j : ℕ) (hj : j ∈ T.nodes)
    (hv : s.visited j = false) : 0 < unvisitedCount T s :=
  List.countP_pos_iff.mpr ⟨j, hj, by simp [hv]⟩

theorem unvisitedCount_mark_lt (T : TreeGraph) (s : MPState) (j : ℕ) (hj : j ∈ T.nodes)
    (hv : s.visited j = false) :
    unvisitedCount T { s with visited := fun i => if i = j then true else s.visited i }
      < unvisitedCount T s :=
  countP_update_lt j s.visited T.nodes hj hv

theorem incident_mem_nodes (T : TreeGraph)
    (hpar : ∀ i p, T.parent i = some p → p ∈ T.nodes) (j : ℕ) :
    ∀ x ∈ T.incident j, x ∈ T.nodes := by
  intro x hx
  rw [TreeGraph.incident] at hx
  rcases List.mem_append.mp hx with h | h
  · rw [TreeGraph.children] at h
    exact List.mem_of_mem_filter h
  · cases hp : T.parent j with
    | none => rw [hp] at h; simp at h
    | some p =>
      rw [hp] at h
      simp at h
      rw [h]
      exact hpar j p hp

theorem guard_always (T : TreeGraph) (node : ℕ) :
    node ≠ T.prior ∨ (node = T.prior ∧ True) := by
  by_cases h : node = T.prior
  · exact Or.inr ⟨h, trivial⟩
  · exact Or.inl h

theorem mpFold_complete (T : TreeGraph) (d : ℕ) (fuel : ℕ)
    (IH : ∀ (j : ℕ) (s : MPState), j ∈ T.nodes → s.visited j = false →
      unvisitedCount T s ≤ fuel →
      (mpGo T d true fuel j s).visited j = true ∧
      (∀ v, s.visited v = false → (mpGo T d true fuel j s).visited v = true →
        ∀ w ∈ T.incident v, (mpGo T d true fuel j s).visited w = true)) :
    ∀ (L : List ℕ) (acc : MPState × List ℕ),
      (∀ x ∈ L, x ∈ T.nodes) →
      unvisitedCount T acc.1 ≤ fuel →
      VisMono acc.1 ((L.foldl
        (fun (acc : MPState × List ℕ) node =>
          if acc.1.visited node = false ∧
              (node ≠ T.prior ∨ (node = T.prior ∧ True)) then
            (mpGo T d true fuel node acc.1, acc.2 ++ [node])
          else acc) acc).1) ∧
      (∀ x ∈ L, ((L.foldl
        (fun (acc : MPState × List ℕ) node =>
          if acc.1.visited node = false ∧
              (node ≠ T.prior ∨ (node = T.prior ∧ True)) then
            (mpGo T d true fuel node acc.1, acc.2 ++ [node])
          else acc) acc).1).visited x = true) ∧
      (∀ v, acc.1.visited v = false → ((L.foldl
        (fun (acc : MPState × List ℕ) node =>
          if acc.1.visited node = false ∧
              (node ≠ T.prior ∨ (node = T.prior ∧ True)) then
            (mpGo T d true fuel node acc.1, acc.2 ++ [node])
          else acc) acc).1).visited v = true →
        ∀ w ∈ T.incident v, ((L.foldl
        (fun (acc : MPState × List ℕ) node =>
          if acc.1.visited node = false ∧
              (node ≠ T.prior ∨ (node = T.prior ∧ True)) then
            (mpGo T d true fuel node acc.1, acc.2 ++ [node])
          else acc) acc).1).visited w = true)
  | [], acc, _, _ => by
    simp only [List.foldl_nil]
    refine ⟨visMono_refl _, by simp, ?_⟩
    intro v hv hv'
    rw [hv] at hv'
    exact absurd hv' (by simp)
  | node :: rest, acc, hL, hcount => by
    simp only [List.foldl_cons]
    by_cases hc : acc.1.visited node = false ∧ (node ≠ T.prior ∨ (node = T.prior ∧ True))
    · rw [if_pos hc]
      have hnodes : node ∈ T.nodes := hL node (List.mem_cons_self node rest)
      obtain ⟨hvisn, hclosub⟩ := IH node acc.1 hnodes hc.1 hcount
      have hmono1 : VisMono acc.1 (mpGo T d true fuel node acc.1) := mpGo_mono T d true fuel node acc.1
      have hcount1 : unvisitedCount T (mpGo T d true fuel node acc.1) ≤ fuel :=
        le_trans (unvisitedCount_mono T hmono1) hcount
      obtain ⟨hmono2, hres2, hclo2⟩ := mpFold_complete T d fuel IH rest
        (mpGo T d true fuel node acc.1, acc.2 ++ [node])
        (fun x hx => hL x (List.mem_cons_of_mem node hx)) hcount1
      refine ⟨visMono_trans hmono1 hmono2, ?_, ?_⟩
      · intro x hx
        rcases List.mem_cons.mp hx with h | h
        · rw [h]; exact hmono2 node hvisn
        · exact hres2 x h
      · intro v hv0 hvfin w hw
        cases hs1 : (mpGo T d true fuel node acc.1).visited v with
        | true => exact hmono2 w (hclosub v hv0 hs1 w hw)
        | false => exact hclo2 v hs1 hvfin w hw
    · rw [if_neg hc]
      have hvn : acc.1.visited node = true := by
        cases hb : acc.1.visited node with
        | true => rfl
        | false => exact absurd ⟨hb, guard_always T node⟩ hc
      obtain ⟨hmono2, hres2, hclo2⟩ := mpFold_complete T d fuel IH rest acc
        (fun x hx => hL x (List.mem_cons_of_mem node hx)) hcount
      refine ⟨hmono2, ?_, hclo2⟩
      intro x hx
      rcases List.mem_cons.mp hx with h | h
      · rw [h]; exact hmono2 node hvn
      · exact hres2 x h

theorem mpGo_complete (T : TreeGraph) (d : ℕ)
    (hpar : ∀ i p, T.parent i = some p → p ∈ T.nodes) :
    ∀ (fuel : ℕ) (j : ℕ) (s : MPState), j ∈ T.nodes → s.visited j = false →
      unvisitedCount T s ≤ fuel →
      (mpGo T d true fuel j s).visited j = true ∧
      (∀ v, s.visited v = false → (mpGo T d true fuel j s).visited v = true →
        ∀ w ∈ T.incident v, (mpGo T d true fuel j s).visited w = true)
  | 0, j, s, hj, hv, hcount => absurd hcount (by
      have := unvisitedCount_pos T s j hj hv
      omega)
  | fuel + 1, j, s, hj, hv, hcount => by
    simp only [mpGo]
    have hcount1 :
        unvisitedCount T { s with visited := fun i => if i = j then true else s.visited i }
          ≤ fuel := by
      have := unvisitedCount_mark_lt T s j hj hv
      omega
    obtain ⟨hmono, hall, hclo⟩ := mpFold_complete T d fuel
      (fun j s hj hv hc => mpGo_complete T d hpar fuel j s hj hv hc)
      (T.incident j) ({ s with visited := fun i => if i = j then true else s.visited i }, [])
      (incident_mem_nodes T hpar j) hcount1
    constructor
    · rw [nodeUpdate_visited]
      exact hmono j (by simp)
    · intro v hv0 hvfin w hw
      rw [nodeUpdate_visited] at hvfin ⊢
      by_cases hvj : v = j
      · rw [hvj] at hw
        exact hall w hw
      · have hv1 : ({ s with visited := fun i => if i = j then true else s.visited i }
            : MPState).visited v = false := by
          simp [hvj, hv0]
        exact hclo v hv1 hvfin w hw

theorem mpGo_reaches (T : TreeGraph) (d : ℕ)
    (hpar : ∀ i p, T.parent i = some p → p ∈ T.nodes)
    (fuel j : ℕ) (s : MPState) (hj : j ∈ T.nodes)
    (hall : ∀ i, s.visited i = false) (hfuel : unvisitedCount T s ≤ fuel)
    (target : ℕ) (hr : Reach T j target) :
    (mpGo T d true fuel j s).visited target = true := by
  obtain ⟨hvj, hcl⟩ := mpGo_complete T d hpar fuel j s hj (hall j) hfuel
  have key : ∀ a c, Reach T a c → (mpGo T d true fuel j s).visited a = true →
      (mpGo T d true fuel j s).visited c = true := by
    intro a c h
    induction h with
    | refl a => exact id
    | step hab _ ih =>
      intro ha
      exact ih (hcl _ (hall _) ha _ hab)
  exact key j target hr hvj

/-- C8: with include_prior = False, perform_message_passing started at
any node other than the prior root leaves the visited flag and the
(nu, mu, log_z) message of the prior root unchanged; with
include_prior = True, started at any node of a freshly de-visited tree
(with enough fuel for the node count and the prior root reachable along
incident edges, as it always is in the connected inference tree), the
prior root does get visited. -/
theorem prior_frame_and_inclusion :
    (∀ (T : TreeGraph) (d fuel j : ℕ) (s : MPState), j ≠ T.prior →
      AgreeAt T.prior s (mpGo T d false fuel j s)) ∧
    (∀ (T : TreeGraph) (d fuel j : ℕ) (s : MPState),
      (∀ i p, T.parent i = some p → p ∈ T.nodes) → j ∈ T.nodes →
      (∀ i, s.visited i = false) → unvisitedCount T s ≤ fuel →
      Reach T j T.prior →
      (mpGo T d true fuel j s).visited T.prior = true) :=
  ⟨fun T d fuel j s hj => mpGo_agree_prior T d fuel j s hj,
   fun T d fuel j s hpar hj hall hfuel hr =>
     mpGo_reaches T d hpar fuel j s hj hall hfuel T.prior hr⟩

/-- Witness for C8 on the example tree: starting at leaf 2. -/
theorem prior_frame_and_inclusion_witness :
    ((2 : ℕ) ≠ exTree.prior ∧
      AgreeAt exTree.prior exStateA (mpGo exTree 1 false 4 2 exStateA)) ∧
    (mpGo exTree 1 true 4 2 exStateA).visited exTree.prior = true :=
  ⟨⟨by decide, prior_frame_and_inclusion.1 exTree 1 4 2 exStateA (by decide)⟩,
   prior_frame_and_inclusion.2 exTree 1 4 2 exStateA
     (by
       intro i p hp
       by_cases h1 : i = 1
       · subst h1
         simp [exTree] at hp
         simp [exTree, ← hp]
       · by_cases h2 : i = 2
         · subst h2
           simp [exTree] at hp
           simp [exTree, ← hp]
         · by_cases h3 : i = 3
           · subst h3
             simp [exTree] at hp
             simp [exTree, ← hp]
           · simp [exTree, h1, h2, h3] at hp)
     (by decide) (fun i => rfl) (by decide)
     (@Reach.step exTree 2 1 exTree.prior (by decide)
       (@Reach.step exTree 1 exTree.prior exTree.prior (by decide)
         (Reach.refl exTree.prior)))⟩
